import Mathlib

/-
Verification of the scikit-gym algorithm core
(skgym/algorithms/base.py and skgym/algorithms/monte_carlo.py).

Design of the shallow embedding:
* numpy 1d arrays of floats become `List ℚ`, 2d arrays become `List (List ℚ)`;
  rewards and the discount factor are rationals.
* States and actions are natural numbers (actions are used as indices into
  per-action prediction vectors).
* The external function approximator (the ValueFunction collaborator) is a
  record of pure functions over an abstract internal-parameter state `σ`;
  its `update` operation returns the new internal state.
* Exceptions become `Except Err`; the distinct Python exception classes that
  the core can raise each get their own `Err` constructor.
* The calls made to the approximator during a `MonteCarlo.update` are returned
  as an explicit trace (a `List UpdateCall`, in call order).
-/

/-- A feature row: one row of a numpy 2d array. -/
abbrev Row := List ℚ

/-- A numpy 2d array, as a list of rows. -/
abbrev Mat := List Row

/-- A numpy array of either one or two dimensions (the label array returned by
the target constructor has a model-kind dependent rank). -/
inductive NdArray where
  | one (v : List ℚ)
  | two (m : Mat)
deriving DecidableEq, Repr

/-- The exceptions the algorithm core can raise.  `valueError` is from the
explicit raise in preprocessing; `unboundLocal` is the Python
UnboundLocalError raised by the fall-through in the target constructor;
`typeError` is from the constructor dispatch; `emptyCache` is the
empty-buffer error of the experience cache. -/
inductive Err where
  | valueError (msg : String)
  | unboundLocal
  | typeError (msg : String)
  | emptyCache
deriving DecidableEq, Repr

/-- Modelled from the spec: the ValueFunction external collaborator interface
(class BaseValueFunction of skgym.value_functions.base, not included in the
sources).  It exposes a model-kind tag MODELTYPE, a feature-extraction
operation X (whose second argument is the optional action, present for the
Type I call X(s, a) and absent for the Type II call X(s)), a next-state
feature expansion preprocess_typeII, a batch evaluation, and an update
operation that fits new labeled examples; `σ` is the approximator internal
parameter state, which only batch_eval reads and only update replaces.  The
Type I next-state expansion is three-dimensional in numpy; since the Monte
Carlo core never reads X_next, its value is carried opaquely as a `Mat`. -/
structure ValueFunction (σ : Type) where
  MODELTYPE : Nat
  X : Nat → Option Nat → Mat
  preprocess_typeII : Nat → Mat
  batch_eval : σ → Mat → Mat
  update : σ → Mat → NdArray → σ

/-- Modelled from the spec: the value-based policy collaborator (class
ValuePolicy of skgym.policies.value_based, not included in the sources); it
exposes a back-reference to the value function it wraps. -/
structure ValuePolicy (σ : Type) where
  value_function : ValueFunction σ

/-- The possible arguments of the BaseValueAlgorithm constructor: a
value-based policy, a bare value function, or any other object. -/
inductive VFInput (σ : Type) where
  | policy (p : ValuePolicy σ)
  | value_function (v : ValueFunction σ)
  | other

/-- A preprocessed transition `(X, A, R, X_next)` as produced by
preprocess_transition and stored in the experience cache. -/
structure PreTransition where
  X : Mat
  A : List Nat
  R : List ℚ
  X_next : Mat
deriving DecidableEq, Repr

/-- Modelled from the spec: ExperienceCache.append (skgym.utils, not included
in the sources) adds one preprocessed transition at the end of the ordered
buffer; the grow overflow policy accepts unbounded appends. -/
def ExperienceCache.append (c : List PreTransition) (t : PreTransition) :
    List PreTransition :=
  c ++ [t]

/-- Modelled from the spec: ExperienceCache.pop (skgym.utils, not included in
the sources) removes and returns the most recently appended transition, and
fails with the empty-buffer error on an empty cache. -/
def ExperienceCache.pop (c : List PreTransition) :
    Except Err (PreTransition × List PreTransition) :=
  match c.getLast? with
  | none => .error .emptyCache
  | some t => .ok (t, c.dropLast)

/-- BaseValueAlgorithm.preprocess_transition (base.py lines 139-159):
branches on the model kind; for Type I the feature row is extracted from the
state-action pair, for Type II from the state alone; any other kind raises
ValueError with message bad MODELTYPE. -/
def BaseValueAlgorithm.preprocess_transition {σ : Type} (vf : ValueFunction σ)
    (s a : Nat) (r : ℚ) (s_next : Nat) : Except Err PreTransition :=
  if vf.MODELTYPE = 1 then
    .ok ⟨vf.X s (some a), [a], [r], vf.preprocess_typeII s_next⟩
  else if vf.MODELTYPE = 2 then
    .ok ⟨vf.X s none, [a], [r], vf.preprocess_typeII s_next⟩
  else
    .error (.valueError "bad MODELTYPE")

/-- The numpy fancy-indexed assignment Y[idx, A] = G with idx = arange
(A.shape[0]): row i of Y gets its entry at column A[i] overwritten by G[i];
rows beyond the length of A are left unchanged. -/
def npFancySet : Mat → List Nat → List ℚ → Mat
  | [], _, _ => []
  | rows, [], _ => rows
  | rows, _, [] => rows
  | row :: rows, j :: js, g :: gs => row.set j g :: npFancySet rows js gs

/-- BaseValueAlgorithm.Y (base.py lines 161-168): for Type I the label is the
return batch G itself; for Type II the label is the current batch evaluation
of X with the taken-action entries overwritten by G.  The Python body assigns
the local Y in neither branch for any other model kind, so `return Y` raises
UnboundLocalError there (no explicit else exists). -/
def BaseValueAlgorithm.Y {σ : Type} (vf : ValueFunction σ) (st : σ)
    (X : Mat) (A : List Nat) (G : List ℚ) : Except Err NdArray :=
  if vf.MODELTYPE = 1 then
    .ok (.one G)
  else if vf.MODELTYPE = 2 then
    .ok (.two (npFancySet (vf.batch_eval st X) A G))
  else
    .error .unboundLocal

/-- BaseValueAlgorithm.__init__ (base.py lines 126-137): resolves whether the
argument is a value-based policy (unwrap and keep both) or a bare value
function (keep it, no policy); anything else raises TypeError. -/
def BaseValueAlgorithm.init {σ : Type} (input : VFInput σ) :
    Except Err (Option (ValuePolicy σ) × ValueFunction σ) :=
  match input with
  | .policy p => .ok (some p, p.value_function)
  | .value_function v => .ok (none, v)
  | .other => .error (.typeError
      "value_function_or_policy must be either a value function or a value-based policy")

/-- The state of a MonteCarlo algorithm instance: the discount factor and the
resolved policy and value-function bindings from construction, the
approximator internal state, and the experience cache. -/
structure MonteCarlo (σ : Type) where
  gamma : ℚ
  policy : Option (ValuePolicy σ)
  value_function : ValueFunction σ
  approx : σ
  experience_cache : List PreTransition

/-- MonteCarlo.__init__ (monte_carlo.py lines 23-25): create an empty
experience cache and dispatch on the constructor argument.  `st` is the
initial internal state of the approximator collaborator. -/
def MonteCarlo.init {σ : Type} (input : VFInput σ) (st : σ) (gamma : ℚ) :
    Except Err (MonteCarlo σ) :=
  match BaseValueAlgorithm.init input with
  | .error e => .error e
  | .ok (pol, vf) => .ok ⟨gamma, pol, vf, st, []⟩

/-- One call issued to the approximator update operation during replay: the
popped transition, the scalar content of the discounted return batch G used
for it, and the label array Y that was fitted. -/
structure UpdateCall where
  t : PreTransition
  G : ℚ
  Y : NdArray
deriving DecidableEq, Repr

/-- The replay loop of MonteCarlo.update (monte_carlo.py lines 62-71): while
the cache is non-empty, pop the most recent transition, fold the reward into
the discounted return G (R is the singleton reward batch np.array([r]); we
track the scalar it contains), build the target, and call the approximator
update.  The loop exits exactly when pop would fail, i.e. on the empty cache;
the remaining cache is returned together with the final approximator state
and the trace of update calls in call order. -/
def MonteCarlo.replay {σ : Type} (vf : ValueFunction σ) (gamma : ℚ) (st : σ)
    (g : ℚ) (cache : List PreTransition) :
    Except Err (σ × List UpdateCall × List PreTransition) :=
  match h : ExperienceCache.pop cache with
  | .error _ => .ok (st, [], cache)
  | .ok (t, cache') =>
    let g' := t.R.headD 0 + gamma * g
    match BaseValueAlgorithm.Y vf st t.X t.A [g'] with
    | .error e => .error e
    | .ok y =>
      match MonteCarlo.replay vf gamma (vf.update st t.X y) g' cache' with
      | .error e => .error e
      | .ok (st'', calls, rest) => .ok (st'', ⟨t, g', y⟩ :: calls, rest)
termination_by cache.length
decreasing_by
  cases cache with
  | nil => simp [ExperienceCache.pop] at h
  | cons a l =>
    have hc : cache' = (a :: l).dropLast := by
      unfold ExperienceCache.pop at h
      cases hg : (a :: l).getLast? with
      | none => simp [hg] at h
      | some t' => rw [hg] at h; cases h; rfl
    subst hc
    simp [List.length_dropLast]

/-- MonteCarlo.update (monte_carlo.py lines 27-71): preprocess the transition,
append it to the experience cache, return if the episode is not done, and
otherwise replay the cached episode in reverse chronological order starting
from return 0.  The returned list is the trace of approximator update calls
issued by this call. -/
def MonteCarlo.update {σ : Type} (m : MonteCarlo σ) (s a : Nat) (r : ℚ)
    (s_next : Nat) (done : Bool) :
    Except Err (MonteCarlo σ × List UpdateCall) :=
  match BaseValueAlgorithm.preprocess_transition m.value_function s a r s_next with
  | .error e => .error e
  | .ok t =>
    let cache := ExperienceCache.append m.experience_cache t
    if !done then
      .ok ({ m with experience_cache := cache }, [])
    else
      match MonteCarlo.replay m.value_function m.gamma m.approx 0 cache with
      | .error e => .error e
      | .ok (st', calls, rest) =>
        .ok ({ m with approx := st', experience_cache := rest }, calls)

/-- Drive one episode: n-1 calls to update with done false followed by one
call with done true, accumulating the trace of approximator update calls.
Each step is a raw transition (s, a, r, s_next). -/
def MonteCarlo.runEpisode {σ : Type} :
    MonteCarlo σ → List (Nat × Nat × ℚ × Nat) →
    Except Err (MonteCarlo σ × List UpdateCall)
  | m, [] => .ok (m, [])
  | m, [(s, a, r, sn)] => m.update s a r sn true
  | m, (s, a, r, sn) :: step :: rest =>
    match m.update s a r sn false with
    | .error e => .error e
    | .ok (m', calls) =>
      match MonteCarlo.runEpisode m' (step :: rest) with
      | .error e => .error e
      | .ok (m'', calls') => .ok (m'', calls ++ calls')

/-- The chronological reward list of a list of raw transitions. -/
def rewards (steps : List (Nat × Nat × ℚ × Nat)) : List ℚ :=
  steps.map fun x => x.2.2.1

/-- The scalar reward content of a preprocessed transition (its reward batch
is the singleton np.array([r])). -/
def rOf (t : PreTransition) : ℚ :=
  t.R.headD 0

/-- The successive values of the return accumulator G produced by the
recurrence G := r + gamma * G along a reward sequence, starting from g. -/
def gTrace (gamma : ℚ) : ℚ → List ℚ → List ℚ
  | _, [] => []
  | g, r :: rest => (r + gamma * g) :: gTrace gamma (r + gamma * g) rest

/-- The discounted Monte Carlo return of a chronological reward list. -/
def discountedReturn (gamma : ℚ) : List ℚ → ℚ
  | [] => 0
  | r :: rest => r + gamma * discountedReturn gamma rest

/-- The value of the return accumulator after the recurrence has consumed a
whole reward list, starting from g. -/
def gFinal (gamma g : ℚ) (l : List ℚ) : ℚ :=
  (gTrace gamma g l).getLastD g

/-- The chronological list of discounted Monte Carlo returns: entry i is the
return of the reward suffix starting at step i. -/
def returnsChron (gamma : ℚ) : List ℚ → List ℚ
  | [] => []
  | r :: rest => (r + gamma * discountedReturn gamma rest) :: returnsChron gamma rest

/-- The trace of G values of a successful update run (and the empty list of a
failed one); used to evaluate concrete episodes. -/
def gListOf {σ : Type} (res : Except Err (MonteCarlo σ × List UpdateCall)) :
    List ℚ :=
  match res with
  | .error _ => []
  | .ok (_, calls) => calls.map UpdateCall.G

/-- A concrete Type I approximator fixture with a trivial internal state. -/
def vfI : ValueFunction Unit where
  MODELTYPE := 1
  X := fun s a => [[(s : ℚ), ((a.getD 0 : Nat) : ℚ)]]
  preprocess_typeII := fun s => [[(s : ℚ)]]
  batch_eval := fun _ m => m
  update := fun st _ _ => st

/-- A concrete Type II approximator fixture with two actions and a trivial
internal state. -/
def vfII : ValueFunction Unit where
  MODELTYPE := 2
  X := fun s _ => [[(s : ℚ)]]
  preprocess_typeII := fun s => [[(s : ℚ)]]
  batch_eval := fun _ X => X.map fun _ => [10, 20]
  update := fun st _ _ => st

/-- A fixture whose model kind is neither of the two recognized values. -/
def vfBad : ValueFunction Unit :=
  { vfI with MODELTYPE := 7 }

/-- A fresh MonteCarlo instance over the Type I fixture, gamma = 1/2. -/
def mcI : MonteCarlo Unit :=
  ⟨mkRat 1 2, none, vfI, (), []⟩

/-- The state reached from mcI by one non-terminal update on transition
(0, 0, 1, 0). -/
def mcI1 : MonteCarlo Unit :=
  { mcI with experience_cache :=
      [⟨vfI.X 0 (some 0), [0], [1], vfI.preprocess_typeII 0⟩] }

/-- A fresh MonteCarlo instance over the unrecognized-model-kind fixture. -/
def mcBad : MonteCarlo Unit :=
  ⟨mkRat 9 10, none, vfBad, (), []⟩

/-- The three-step episode of the example scenario: rewards 1, 2, 3. -/
def epSteps : List (Nat × Nat × ℚ × Nat) :=
  [(0, 0, 1, 0), (0, 0, 2, 0), (0, 0, 3, 0)]

/-- Popping the empty cache raises the empty-buffer error. -/
theorem ExperienceCache.pop_nil : ExperienceCache.pop [] = .error .emptyCache := by
  rfl

/-- Popping returns the last appended transition and the rest of the buffer. -/
theorem ExperienceCache.pop_concat (l : List PreTransition) (t : PreTransition) :
    ExperienceCache.pop (l ++ [t]) = .ok (t, l) := by
  simp [ExperienceCache.pop, List.getLast?_concat, List.dropLast_concat]

/-- For a recognized model kind the target constructor succeeds. -/
theorem Y_ok {σ : Type} (vf : ValueFunction σ) (st : σ) (X : Mat) (A : List Nat)
    (G : List ℚ) (hm : vf.MODELTYPE = 1 ∨ vf.MODELTYPE = 2) :
    ∃ y, BaseValueAlgorithm.Y vf st X A G = .ok y := by
  rcases hm with h | h <;> simp [BaseValueAlgorithm.Y, h]

/-- For a recognized model kind preprocessing succeeds, with the singleton
action and reward batches of the input transition. -/
theorem preprocess_transition_ok {σ : Type} (vf : ValueFunction σ) (s a : Nat)
    (r : ℚ) (sn : Nat) (hm : vf.MODELTYPE = 1 ∨ vf.MODELTYPE = 2) :
    ∃ t, BaseValueAlgorithm.preprocess_transition vf s a r sn = .ok t ∧
      t.A = [a] ∧ t.R = [r] := by
  rcases hm with h | h <;> simp [BaseValueAlgorithm.preprocess_transition, h]

/-- Replaying the empty cache performs no update call and stops at once. -/
theorem replay_nil {σ : Type} (vf : ValueFunction σ) (gamma : ℚ) (st : σ)
    (g : ℚ) : MonteCarlo.replay vf gamma st g [] = .ok (st, [], []) := by
  unfold MonteCarlo.replay
  simp [ExperienceCache.pop_nil]

/-- The replay loop for a recognized model kind: it succeeds, drains the cache
completely, issues the update calls on the buffered transitions in reverse
append order, and uses the G values generated by the return recurrence along
that reversed reward sequence. -/
theorem replay_spec {σ : Type} (vf : ValueFunction σ) (gamma : ℚ)
    (hm : vf.MODELTYPE = 1 ∨ vf.MODELTYPE = 2) (cache : List PreTransition) :
    ∀ (st : σ) (g : ℚ), ∃ st' calls,
      MonteCarlo.replay vf gamma st g cache = .ok (st', calls, []) ∧
      calls.map UpdateCall.t = cache.reverse ∧
      calls.map UpdateCall.G = gTrace gamma g ((cache.map rOf).reverse) := by
  induction cache using List.reverseRecOn with
  | nil =>
    intro st g
    exact ⟨st, [], replay_nil vf gamma st g, rfl, rfl⟩
  | append_singleton l t ih =>
    intro st g
    obtain ⟨y, hy⟩ := Y_ok vf st t.X t.A [t.R.headD 0 + gamma * g] hm
    obtain ⟨st', calls, hrec, hmapt, hmapG⟩ :=
      ih (vf.update st t.X y) (t.R.headD 0 + gamma * g)
    refine ⟨st', ⟨t, t.R.headD 0 + gamma * g, y⟩ :: calls, ?_, ?_, ?_⟩
    · unfold MonteCarlo.replay
      rw [ExperienceCache.pop_concat]
      simp only [hy, hrec]
    · simp [hmapt]
    · simp [gTrace, rOf, hmapG]

/-- A non-terminal update for a recognized model kind: it appends exactly the
preprocessed transition, issues no approximator update call, and leaves the
other fields (including the approximator state) untouched. -/
theorem update_not_done_spec {σ : Type} (m : MonteCarlo σ) (s a : Nat) (r : ℚ)
    (sn : Nat)
    (hm : m.value_function.MODELTYPE = 1 ∨ m.value_function.MODELTYPE = 2) :
    ∃ t, BaseValueAlgorithm.preprocess_transition m.value_function s a r sn = .ok t ∧
      t.A = [a] ∧ t.R = [r] ∧
      MonteCarlo.update m s a r sn false =
        .ok ({ m with experience_cache := m.experience_cache ++ [t] }, []) := by
  obtain ⟨t, hpre, hA, hR⟩ := preprocess_transition_ok m.value_function s a r sn hm
  exact ⟨t, hpre, hA, hR, by simp [MonteCarlo.update, hpre, ExperienceCache.append]⟩

/-- A terminal update for a recognized model kind: it appends the preprocessed
transition, replays the whole cache in reverse append order, drains the cache,
and uses the G values generated by the return recurrence from 0 along the
reversed reward sequence. -/
theorem update_done_spec {σ : Type} (m : MonteCarlo σ) (s a : Nat) (r : ℚ)
    (sn : Nat)
    (hm : m.value_function.MODELTYPE = 1 ∨ m.value_function.MODELTYPE = 2) :
    ∃ t st' calls,
      BaseValueAlgorithm.preprocess_transition m.value_function s a r sn = .ok t ∧
      t.A = [a] ∧ t.R = [r] ∧
      MonteCarlo.update m s a r sn true =
        .ok ({ m with approx := st', experience_cache := [] }, calls) ∧
      calls.map UpdateCall.t = (m.experience_cache ++ [t]).reverse ∧
      calls.map UpdateCall.G =
        gTrace m.gamma 0 (((m.experience_cache ++ [t]).map rOf).reverse) := by
  obtain ⟨t, hpre, hA, hR⟩ := preprocess_transition_ok m.value_function s a r sn hm
  obtain ⟨st', calls, hrep, hmapt, hmapG⟩ :=
    replay_spec m.value_function m.gamma hm (m.experience_cache ++ [t]) m.approx 0
  refine ⟨t, st', calls, hpre, hA, hR, ?_, hmapt, hmapG⟩
  simp [MonteCarlo.update, hpre, ExperienceCache.append, hrep]

/-- Driving a non-empty episode for a recognized model kind: the run succeeds,
the cache is drained, there is one approximator update call per buffered
transition (pre-existing cache entries plus one per episode step), and the G
values are those of the return recurrence from 0 along the reversed reward
sequence. -/
theorem runEpisode_spec {σ : Type} :
    ∀ (steps : List (Nat × Nat × ℚ × Nat)), steps ≠ [] →
    ∀ (m : MonteCarlo σ),
    m.value_function.MODELTYPE = 1 ∨ m.value_function.MODELTYPE = 2 →
    ∃ mc' calls, MonteCarlo.runEpisode m steps = .ok (mc', calls) ∧
      mc'.experience_cache = [] ∧
      calls.length = m.experience_cache.length + steps.length ∧
      calls.map UpdateCall.G =
        gTrace m.gamma 0 ((m.experience_cache.map rOf ++ rewards steps).reverse) := by
  intro steps
  induction steps with
  | nil => intro h; exact absurd rfl h
  | cons step rest ih =>
    intro _ m hm
    obtain ⟨s, a, r, sn⟩ := step
    cases rest with
    | nil =>
      obtain ⟨t, st', calls, hpre, hA, hR, hupd, hmapt, hmapG⟩ :=
        update_done_spec m s a r sn hm
      refine ⟨{ m with approx := st', experience_cache := [] }, calls, ?_, rfl, ?_, ?_⟩
      · simpa [MonteCarlo.runEpisode] using hupd
      · have := congrArg List.length hmapt
        simpa using this
      · rw [hmapG]
        simp [rewards, rOf, hR]
    | cons step2 rest2 =>
      obtain ⟨t, hpre, hA, hR, hupd⟩ := update_not_done_spec m s a r sn hm
      obtain ⟨mc', calls', hrun, hcache, hlen, hmapG⟩ :=
        ih (by simp) ({ m with experience_cache := m.experience_cache ++ [t] }) hm
      refine ⟨mc', calls', ?_, hcache, ?_, ?_⟩
      · simp only [MonteCarlo.runEpisode, hupd, hrun, List.nil_append]
      · simp only [List.length_append, List.length_cons, List.length_nil] at hlen ⊢
        omega
      · rw [hmapG]
        simp [rewards, rOf, hR]

theorem gFinal_cons (gamma g x : ℚ) (l : List ℚ) :
    gFinal gamma g (x :: l) = gFinal gamma (x + gamma * g) l := by
  unfold gFinal
  rw [gTrace, List.getLastD_cons]

theorem gTrace_concat (gamma : ℚ) (r : ℚ) (l : List ℚ) :
    ∀ g, gTrace gamma g (l ++ [r]) =
      gTrace gamma g l ++ [r + gamma * gFinal gamma g l] := by
  induction l with
  | nil => intro g; simp [gTrace, gFinal]
  | cons x l ih =>
    intro g
    rw [List.cons_append, gTrace, ih (x + gamma * g), gFinal_cons, gTrace]
    simp

/-- After consuming a reversed chronological reward list starting from 0, the
accumulator holds the discounted return of the whole list. -/
theorem gFinal_reverse (gamma : ℚ) (rs : List ℚ) :
    gFinal gamma 0 rs.reverse = discountedReturn gamma rs := by
  induction rs with
  | nil => simp [gFinal, gTrace, discountedReturn]
  | cons r rest ih =>
    simp only [List.reverse_cons, gFinal, gTrace_concat, discountedReturn, ← ih]
    simp

/-- The accumulator values seen while consuming a reversed chronological
reward list from 0 are exactly the reversed chronological suffix returns. -/
theorem gTrace_zero_reverse (gamma : ℚ) (rs : List ℚ) :
    gTrace gamma 0 rs.reverse = (returnsChron gamma rs).reverse := by
  induction rs with
  | nil => simp [gTrace, returnsChron]
  | cons r rest ih =>
    simp only [List.reverse_cons, gTrace_concat, ih, returnsChron, gFinal_reverse]

theorem returnsChron_length (gamma : ℚ) (rs : List ℚ) :
    (returnsChron gamma rs).length = rs.length := by
  induction rs with
  | nil => rfl
  | cons r rest ih => simp [returnsChron, ih]

theorem returnsChron_getD (gamma : ℚ) :
    ∀ (rs : List ℚ) (i : Nat), i < rs.length →
      (returnsChron gamma rs).getD i 0 = discountedReturn gamma (rs.drop i) := by
  intro rs
  induction rs with
  | nil => intro i hi; simp at hi
  | cons r rest ih =>
    intro i hi
    cases i with
    | zero => simp [returnsChron, discountedReturn]
    | succ i =>
      simp only [returnsChron, List.getD_cons_succ, List.drop_succ_cons]
      exact ih i (by simpa using hi)

/-- The discounted return as the explicit finite geometric sum of the claim. -/
theorem discountedReturn_eq_sum (gamma : ℚ) (rs : List ℚ) :
    discountedReturn gamma rs =
      ∑ k ∈ Finset.range rs.length, gamma ^ k * rs.getD k 0 := by
  induction rs with
  | nil => simp [discountedReturn]
  | cons r rest ih =>
    rw [discountedReturn, ih, List.length_cons, Finset.sum_range_succ']
    have hterm : ∀ k, gamma ^ (k + 1) * (r :: rest).getD (k + 1) 0 =
        gamma * (gamma ^ k * rest.getD k 0) := by
      intro k
      rw [List.getD_cons_succ]
      ring
    simp only [hterm, ← Finset.mul_sum, List.getD_cons_zero, pow_zero, one_mul]
    ring

theorem getD_drop (rs : List ℚ) (i k : Nat) (h : i + k < rs.length) :
    (rs.drop i).getD k 0 = rs.getD (i + k) 0 := by
  have h1 : k < (rs.drop i).length := by
    rw [List.length_drop]; omega
  rw [List.getD_eq_getElem _ _ h1, List.getD_eq_getElem _ _ h, List.getElem_drop]

theorem getD_reverse (l : List ℚ) (i : Nat) (hi : i < l.length) :
    l.reverse.getD (l.length - 1 - i) 0 = l.getD i 0 := by
  have h1 : l.length - 1 - i < l.reverse.length := by
    rw [List.length_reverse]; omega
  rw [List.getD_eq_getElem _ _ h1, List.getElem_reverse]
  have h2 : l.length - 1 - (l.length - 1 - i) = i := by omega
  simp only [h2]
  rw [List.getD_eq_getElem _ _ hi]

theorem npFancySet_length :
    ∀ (B : Mat) (A : List Nat) (G : List ℚ), (npFancySet B A G).length = B.length := by
  intro B
  induction B with
  | nil => intro A G; cases A <;> cases G <;> rfl
  | cons row rows ih =>
    intro A G
    cases A with
    | nil => cases G <;> rfl
    | cons j js =>
      cases G with
      | nil => rfl
      | cons g gs => simp [npFancySet, ih js gs]

theorem npFancySet_forall_length :
    ∀ (B : Mat) (A : List Nat) (G : List ℚ) (n : Nat),
      (∀ row ∈ B, row.length = n) → ∀ row ∈ npFancySet B A G, row.length = n := by
  intro B
  induction B with
  | nil => intro A G n hB row hrow; simp [npFancySet] at hrow
  | cons b rows ih =>
    intro A G n hB row hrow
    cases A with
    | nil =>
      cases G <;> exact hB row hrow
    | cons j js =>
      cases G with
      | nil => exact hB row hrow
      | cons g gs =>
        simp only [npFancySet, List.mem_cons] at hrow
        rcases hrow with h1 | h2
        · rw [h1, List.length_set]
          exact hB b (by simp)
        · exact ih js gs n (fun r hr => hB r (by simp [hr])) row h2

/-- On matching batch lengths, the fancy-set result row i is row i of the
input with entry A[i] replaced by G[i]. -/
theorem npFancySet_getD :
    ∀ (B : Mat) (A : List Nat) (G : List ℚ), A.length = B.length →
      G.length = A.length → ∀ i, i < B.length →
      (npFancySet B A G).getD i [] = (B.getD i []).set (A.getD i 0) (G.getD i 0) := by
  intro B
  induction B with
  | nil => intro A G hA hG i hi; simp at hi
  | cons row rows ih =>
    intro A G hA hG i hi
    cases A with
    | nil => simp at hA
    | cons j js =>
      cases G with
      | nil => simp at hG
      | cons g gs =>
        cases i with
        | zero => simp [npFancySet]
        | succ i =>
          simp only [npFancySet, List.getD_cons_succ]
          exact ih js gs (by simpa using hA) (by simpa using hG) i (by simpa using hi)

theorem getD_set_ne (row : Row) (j k : Nat) (g : ℚ) (h : k ≠ j) :
    (row.set j g).getD k 0 = row.getD k 0 := by
  rw [List.getD_eq_getElem?_getD, List.getD_eq_getElem?_getD,
    List.getElem?_set_ne (fun hj => h hj.symm)]

theorem getD_set_self (row : Row) (j : Nat) (g : ℚ) (h : j < row.length) :
    (row.set j g).getD j 0 = g := by
  rw [List.getD_eq_getElem _ _ (by simpa using h), List.getElem_set, if_pos rfl]

/-- Claim C3: for every completed episode (an uninterrupted sequence of
MonteCarlo.update calls ending with done true, starting from an empty cache)
the number of approximator update calls equals the number of transitions
appended during the episode (each of the n update calls appends exactly one
transition, and the non-terminal calls issue no approximator update, so all n
calls in the trace are issued during the terminal call), and the experience
cache is empty immediately after the terminal call returns. -/
theorem episode_drain {σ : Type} (vf : ValueFunction σ) (st : σ) (gamma : ℚ)
    (hm : vf.MODELTYPE = 1 ∨ vf.MODELTYPE = 2)
    (steps : List (Nat × Nat × ℚ × Nat)) (hne : steps ≠ []) :
    ∃ mc' calls,
      MonteCarlo.runEpisode ⟨gamma, none, vf, st, []⟩ steps = .ok (mc', calls) ∧
      calls.length = steps.length ∧
      mc'.experience_cache = [] := by
  obtain ⟨mc', calls, hrun, hcache, hlen, hmapG⟩ :=
    runEpisode_spec steps hne ⟨gamma, none, vf, st, []⟩ hm
  exact ⟨mc', calls, hrun, by simpa using hlen, hcache⟩

/-- Claim C3 witness: the three-step episode on the Type I fixture. -/
theorem episode_drain_witness :
    ((vfI.MODELTYPE = 1 ∨ vfI.MODELTYPE = 2) ∧ epSteps ≠ []) ∧
    (∃ mc' calls,
      MonteCarlo.runEpisode ⟨mkRat 1 2, none, vfI, (), []⟩ epSteps = .ok (mc', calls) ∧
      calls.length = epSteps.length ∧
      mc'.experience_cache = []) :=
  ⟨⟨Or.inl rfl, by simp [epSteps]⟩,
    episode_drain vfI () (mkRat 1 2) (Or.inl rfl) epSteps (by simp [epSteps])⟩

/-- Claim C4: during the replay triggered by an update call with done true,
the approximator update calls visit the buffered transitions in strict
reverse-chronological order of their append order: the reversed appended
buffer (terminal transition first, first transition of the episode last). -/
theorem replay_reverse_order {σ : Type} (m : MonteCarlo σ) (s a : Nat) (r : ℚ)
    (sn : Nat)
    (hm : m.value_function.MODELTYPE = 1 ∨ m.value_function.MODELTYPE = 2) :
    ∃ t mc' calls,
      BaseValueAlgorithm.preprocess_transition m.value_function s a r sn = .ok t ∧
      MonteCarlo.update m s a r sn true = .ok (mc', calls) ∧
      calls.map UpdateCall.t = (ExperienceCache.append m.experience_cache t).reverse := by
  obtain ⟨t, st', calls, hpre, hA, hR, hupd, hmapt, hmapG⟩ := update_done_spec m s a r sn hm
  exact ⟨t, { m with approx := st', experience_cache := [] }, calls, hpre, hupd, hmapt⟩

/-- Claim C4 witness: terminal update on a state with one buffered
transition. -/
theorem replay_reverse_order_witness :
    (mcI1.value_function.MODELTYPE = 1 ∨ mcI1.value_function.MODELTYPE = 2) ∧
    (∃ t mc' calls,
      BaseValueAlgorithm.preprocess_transition mcI1.value_function 0 0 3 0 = .ok t ∧
      MonteCarlo.update mcI1 0 0 3 0 true = .ok (mc', calls) ∧
      calls.map UpdateCall.t = (ExperienceCache.append mcI1.experience_cache t).reverse) :=
  ⟨Or.inl rfl, replay_reverse_order mcI1 0 0 3 0 (Or.inl rfl)⟩

/-- Claim C5: for a Type I approximator the target constructor returns the
return batch G itself as a rank-one label array of the batch size, with no
dependency on the approximator state or on its batch evaluation operation. -/
theorem typeI_target_spec {σ : Type} (vf : ValueFunction σ) (st : σ) (X : Mat)
    (A : List Nat) (G : List ℚ) (hm : vf.MODELTYPE = 1) :
    BaseValueAlgorithm.Y vf st X A G = .ok (.one G) ∧
    (∀ st' : σ, BaseValueAlgorithm.Y vf st' X A G = .ok (.one G)) ∧
    (∀ f : σ → Mat → Mat,
      BaseValueAlgorithm.Y { vf with batch_eval := f } st X A G = .ok (.one G)) := by
  refine ⟨?_, fun st' => ?_, fun f => ?_⟩ <;> simp [BaseValueAlgorithm.Y, hm]

/-- Claim C5 witness. -/
theorem typeI_target_witness :
    vfI.MODELTYPE = 1 ∧
    (BaseValueAlgorithm.Y vfI () [[1]] [0] [5] = .ok (.one [5]) ∧
      (∀ st' : Unit, BaseValueAlgorithm.Y vfI st' [[1]] [0] [5] = .ok (.one [5])) ∧
      (∀ f : Unit → Mat → Mat,
        BaseValueAlgorithm.Y { vfI with batch_eval := f } () [[1]] [0] [5] =
          .ok (.one [5]))) :=
  ⟨rfl, typeI_target_spec vfI () [[1]] [0] [5] rfl⟩

/-- Claim C6 counterexample: with the unrecognized model kind 7, preprocessing
raises the unsupported-model-kind ValueError, but the target constructor
fails with UnboundLocalError, which is not that error; so it is false that
both operations raise the unsupported-model-kind error. -/
theorem badkind_Y_counterexample :
    BaseValueAlgorithm.preprocess_transition vfBad 0 0 1 0 =
      .error (.valueError "bad MODELTYPE") ∧
    BaseValueAlgorithm.Y vfBad () [[1]] [0] [2] = .error .unboundLocal ∧
    Err.unboundLocal ≠ Err.valueError "bad MODELTYPE" :=
  ⟨rfl, rfl, by decide⟩

/-- Claim C6 (amended): for every model-kind tag other than 1 and 2,
preprocessing raises the unsupported-model-kind ValueError, while the target
constructor also fails, but with an UnboundLocalError (its body assigns the
result in neither branch), not with the unsupported-model-kind error. -/
theorem badkind_errors {σ : Type} (vf : ValueFunction σ) (st : σ) (s a : Nat)
    (r : ℚ) (sn : Nat) (X : Mat) (A : List Nat) (G : List ℚ)
    (h1 : vf.MODELTYPE ≠ 1) (h2 : vf.MODELTYPE ≠ 2) :
    BaseValueAlgorithm.preprocess_transition vf s a r sn =
      .error (.valueError "bad MODELTYPE") ∧
    BaseValueAlgorithm.Y vf st X A G = .error .unboundLocal := by
  constructor <;>
    simp [BaseValueAlgorithm.preprocess_transition, BaseValueAlgorithm.Y, h1, h2]

/-- Claim C6 witness for the amended statement. -/
theorem badkind_errors_witness :
    (vfBad.MODELTYPE ≠ 1 ∧ vfBad.MODELTYPE ≠ 2) ∧
    (BaseValueAlgorithm.preprocess_transition vfBad 0 0 1 0 =
        .error (.valueError "bad MODELTYPE") ∧
      BaseValueAlgorithm.Y vfBad () [[1]] [0] [2] = .error .unboundLocal) :=
  ⟨⟨by decide, by decide⟩,
    badkind_errors vfBad () 0 0 1 0 [[1]] [0] [2] (by decide) (by decide)⟩

/-- Claim C7: every update call with done false appends exactly one
preprocessed transition to the experience cache (length grows by exactly one)
and issues no approximator update call (the call trace is empty and the
approximator state is untouched). -/
theorem accumulate_step {σ : Type} (m : MonteCarlo σ) (s a : Nat) (r : ℚ)
    (sn : Nat)
    (hm : m.value_function.MODELTYPE = 1 ∨ m.value_function.MODELTYPE = 2) :
    ∃ t, BaseValueAlgorithm.preprocess_transition m.value_function s a r sn = .ok t ∧
      MonteCarlo.update m s a r sn false =
        .ok ({ m with experience_cache := ExperienceCache.append m.experience_cache t }, []) ∧
      (ExperienceCache.append m.experience_cache t).length =
        m.experience_cache.length + 1 := by
  obtain ⟨t, hpre, hA, hR, hupd⟩ := update_not_done_spec m s a r sn hm
  exact ⟨t, hpre, hupd, by simp [ExperienceCache.append]⟩

/-- Claim C7 witness. -/
theorem accumulate_step_witness :
    (mcI.value_function.MODELTYPE = 1 ∨ mcI.value_function.MODELTYPE = 2) ∧
    (∃ t, BaseValueAlgorithm.preprocess_transition mcI.value_function 0 0 1 0 = .ok t ∧
      MonteCarlo.update mcI 0 0 1 0 false =
        .ok ({ mcI with experience_cache := ExperienceCache.append mcI.experience_cache t }, []) ∧
      (ExperienceCache.append mcI.experience_cache t).length =
        mcI.experience_cache.length + 1) :=
  ⟨Or.inl rfl, accumulate_step mcI 0 0 1 0 (Or.inl rfl)⟩

/-- Claim C8: constructing the algorithm with a value-based policy resolves
and stores the wrapped value function (and the policy); with a bare value
function it stores that object itself (and no policy); with anything else it
fails with the construction-time TypeError, before any update is attempted
(construction issues no update). -/
theorem init_dispatch {σ : Type} (st : σ) (gamma : ℚ) :
    (∀ p : ValuePolicy σ, MonteCarlo.init (VFInput.policy p) st gamma =
      .ok ⟨gamma, some p, p.value_function, st, []⟩) ∧
    (∀ v : ValueFunction σ, MonteCarlo.init (VFInput.value_function v) st gamma =
      .ok ⟨gamma, none, v, st, []⟩) ∧
    MonteCarlo.init (VFInput.other : VFInput σ) st gamma =
      .error (.typeError
        "value_function_or_policy must be either a value function or a value-based policy") :=
  ⟨fun p => rfl, fun v => rfl, rfl⟩

/-- Claim C9: when preprocessing fails (unrecognized model kind), the whole
update call fails with that same error before the append: no transition is
added to the experience cache and no approximator update call is issued (the
call produces no successor state and no call trace). -/
theorem update_preprocess_fail {σ : Type} (m : MonteCarlo σ) (s a : Nat)
    (r : ℚ) (sn : Nat) (done : Bool)
    (h1 : m.value_function.MODELTYPE ≠ 1) (h2 : m.value_function.MODELTYPE ≠ 2) :
    MonteCarlo.update m s a r sn done = .error (.valueError "bad MODELTYPE") := by
  simp [MonteCarlo.update, BaseValueAlgorithm.preprocess_transition, h1, h2]

/-- Claim C9 witness. -/
theorem update_preprocess_fail_witness :
    (mcBad.value_function.MODELTYPE ≠ 1 ∧ mcBad.value_function.MODELTYPE ≠ 2) ∧
    MonteCarlo.update mcBad 0 0 1 0 false = .error (.valueError "bad MODELTYPE") :=
  ⟨⟨by decide, by decide⟩,
    update_preprocess_fail mcBad 0 0 1 0 false (by decide) (by decide)⟩

/-- Claim C10: no update call, terminal or not, modifies the discount factor,
the resolved value-function binding or the policy binding; the successor state
differs from the input state only in the experience cache and the approximator
state. -/
theorem update_frame {σ : Type} (m mc' : MonteCarlo σ) (calls : List UpdateCall)
    (s a : Nat) (r : ℚ) (sn : Nat) (done : Bool)
    (h : MonteCarlo.update m s a r sn done = .ok (mc', calls)) :
    mc'.gamma = m.gamma ∧ mc'.value_function = m.value_function ∧
      mc'.policy = m.policy := by
  unfold MonteCarlo.update at h
  cases hp : BaseValueAlgorithm.preprocess_transition m.value_function s a r sn with
  | error e => rw [hp] at h; simp at h
  | ok t =>
    rw [hp] at h
    cases done with
    | false =>
      simp only [Bool.not_false, if_true, Except.ok.injEq, Prod.mk.injEq] at h
      obtain ⟨h1, _⟩ := h
      rw [← h1]
      exact ⟨rfl, rfl, rfl⟩
    | true =>
      simp only [Bool.not_true, Bool.false_eq_true, if_false] at h
      cases hr : MonteCarlo.replay m.value_function m.gamma m.approx 0
          (ExperienceCache.append m.experience_cache t) with
      | error e => rw [hr] at h; simp at h
      | ok res =>
        obtain ⟨st', calls2, rest⟩ := res
        rw [hr] at h
        simp only [Except.ok.injEq, Prod.mk.injEq] at h
        obtain ⟨h1, _⟩ := h
        rw [← h1]
        exact ⟨rfl, rfl, rfl⟩

/-- Claim C10 witness: a concrete non-terminal update. -/
theorem update_frame_witness :
    MonteCarlo.update mcI 0 0 1 0 false = .ok (mcI1, []) ∧
    (mcI1.gamma = mcI.gamma ∧ mcI1.value_function = mcI.value_function ∧
      mcI1.policy = mcI.policy) :=
  ⟨rfl, update_frame mcI mcI1 [] 0 0 1 0 false rfl⟩

/-- Claim C2: for a Type II approximator the target array is the current
batch-evaluated prediction with, in every row i, only the entry at the taken
action A[i] overwritten by the return G[i]; the output is rank two with
batch_size rows (one per row of X, given that batch evaluation is row-wise)
of num_actions entries each. -/
theorem typeII_target_spec {σ : Type} (vf : ValueFunction σ) (st : σ) (X : Mat)
    (A : List Nat) (G : List ℚ) (nA : Nat) (hm : vf.MODELTYPE = 2)
    (hA : A.length = (vf.batch_eval st X).length)
    (hG : G.length = A.length)
    (hB : (vf.batch_eval st X).length = X.length)
    (hrow : ∀ row ∈ vf.batch_eval st X, row.length = nA) :
    ∃ P, BaseValueAlgorithm.Y vf st X A G = .ok (.two P) ∧
      P.length = X.length ∧
      (∀ row ∈ P, row.length = nA) ∧
      ∀ i, i < P.length →
        (∀ j, j < nA → j ≠ A.getD i 0 →
          (P.getD i []).getD j 0 = ((vf.batch_eval st X).getD i []).getD j 0) ∧
        (A.getD i 0 < nA →
          (P.getD i []).getD (A.getD i 0) 0 = G.getD i 0) := by
  refine ⟨npFancySet (vf.batch_eval st X) A G, ?_, ?_, ?_, ?_⟩
  · simp [BaseValueAlgorithm.Y, hm]
  · rw [npFancySet_length, hB]
  · exact npFancySet_forall_length (vf.batch_eval st X) A G nA hrow
  · intro i hi
    rw [npFancySet_length] at hi
    have hset := npFancySet_getD (vf.batch_eval st X) A G hA hG i hi
    have hmem : (vf.batch_eval st X).getD i [] ∈ vf.batch_eval st X := by
      rw [List.getD_eq_getElem _ _ hi]
      exact List.getElem_mem hi
    have hrl : ((vf.batch_eval st X).getD i []).length = nA :=
      hrow _ hmem
    constructor
    · intro j hj hne
      rw [hset]
      exact getD_set_ne _ _ _ _ hne
    · intro hAi
      rw [hset]
      exact getD_set_self _ _ _ (by rw [hrl]; exact hAi)

/-- Claim C2 witness: one state row, two actions, prediction [10, 20], action
1 overwritten by the return 99. -/
theorem typeII_target_witness :
    (vfII.MODELTYPE = 2 ∧
      ([1] : List Nat).length = (vfII.batch_eval () [[5]]).length ∧
      ([99] : List ℚ).length = ([1] : List Nat).length ∧
      (vfII.batch_eval () [[5]]).length = ([[5]] : Mat).length ∧
      (∀ row ∈ vfII.batch_eval () [[5]], row.length = 2)) ∧
    (∃ P, BaseValueAlgorithm.Y vfII () [[5]] [1] [99] = .ok (.two P) ∧
      P.length = ([[5]] : Mat).length ∧
      (∀ row ∈ P, row.length = 2) ∧
      ∀ i, i < P.length →
        (∀ j, j < 2 → j ≠ ([1] : List Nat).getD i 0 →
          (P.getD i []).getD j 0 = ((vfII.batch_eval () [[5]]).getD i []).getD j 0) ∧
        (([1] : List Nat).getD i 0 < 2 →
          (P.getD i []).getD (([1] : List Nat).getD i 0) 0 = ([99] : List ℚ).getD i 0)) :=
  ⟨⟨rfl, by decide, by decide, by decide, by decide⟩,
    typeII_target_spec vfII () [[5]] [1] [99] 2 rfl (by decide) (by decide)
      (by decide) (by decide)⟩

/-- Claim C1: for every discount factor gamma in [0,1] and every finite
episode of n transitions driven as n-1 non-terminal updates followed by one
terminal update, the return G used for the target construction and the
approximator update of the transition appended at (0-indexed) step i — which
is call number n-1-i of the replay trace — equals the discounted sum
r_i + gamma r_(i+1) + ... + gamma^(n-1-i) r_(n-1) of the remaining rewards. -/
theorem mc_returns_discounted {σ : Type} (vf : ValueFunction σ) (st : σ)
    (gamma : ℚ) (hm : vf.MODELTYPE = 1 ∨ vf.MODELTYPE = 2)
    (hg0 : 0 ≤ gamma) (hg1 : gamma ≤ 1)
    (steps : List (Nat × Nat × ℚ × Nat)) (hne : steps ≠ []) :
    ∃ mc' calls,
      MonteCarlo.runEpisode ⟨gamma, none, vf, st, []⟩ steps = .ok (mc', calls) ∧
      calls.length = steps.length ∧
      ∀ i, i < steps.length →
        (calls.map UpdateCall.G).getD (steps.length - 1 - i) 0 =
          ∑ k ∈ Finset.range (steps.length - i),
            gamma ^ k * (rewards steps).getD (i + k) 0 := by
  obtain ⟨mc', calls, hrun, hcache, hlen, hmapG⟩ :=
    runEpisode_spec steps hne ⟨gamma, none, vf, st, []⟩ hm
  have hrsl : (rewards steps).length = steps.length := by simp [rewards]
  refine ⟨mc', calls, hrun, by simpa using hlen, ?_⟩
  intro i hi
  have hexp : calls.map UpdateCall.G = (returnsChron gamma (rewards steps)).reverse := by
    rw [hmapG]
    show gTrace gamma 0 (([] ++ rewards steps)).reverse = _
    rw [List.nil_append, gTrace_zero_reverse]
  rw [hexp]
  have hcl : (returnsChron gamma (rewards steps)).length = steps.length := by
    rw [returnsChron_length, hrsl]
  have hgetrev := getD_reverse (returnsChron gamma (rewards steps)) i
    (by rw [hcl]; exact hi)
  rw [hcl] at hgetrev
  rw [hgetrev, returnsChron_getD gamma (rewards steps) i (by rw [hrsl]; exact hi),
    discountedReturn_eq_sum, List.length_drop, hrsl]
  refine Finset.sum_congr rfl ?_
  intro k hk
  have hik : i + k < (rewards steps).length := by
    rw [hrsl]
    have := Finset.mem_range.mp hk
    omega
  rw [getD_drop (rewards steps) i k hik]

/-- Claim C1 witness: the example scenario (rewards 1, 2, 3 with gamma 1/2);
the concrete replay trace uses, in call order, G = 3, then 7/2, then 11/4,
matching the claim. -/
theorem mc_returns_discounted_witness :
    ((vfI.MODELTYPE = 1 ∨ vfI.MODELTYPE = 2) ∧ (0 : ℚ) ≤ mkRat 1 2 ∧
      mkRat 1 2 ≤ 1 ∧ epSteps ≠ []) ∧
    gListOf (MonteCarlo.runEpisode ⟨mkRat 1 2, none, vfI, (), []⟩ epSteps) =
      [3, mkRat 7 2, mkRat 11 4] ∧
    (∃ mc' calls,
      MonteCarlo.runEpisode ⟨mkRat 1 2, none, vfI, (), []⟩ epSteps = .ok (mc', calls) ∧
      calls.length = epSteps.length ∧
      ∀ i, i < epSteps.length →
        (calls.map UpdateCall.G).getD (epSteps.length - 1 - i) 0 =
          ∑ k ∈ Finset.range (epSteps.length - i),
            (mkRat 1 2) ^ k * (rewards epSteps).getD (i + k) 0) :=
  ⟨⟨Or.inl rfl, by decide, by decide, by simp [epSteps]⟩,
    by
      obtain ⟨mc', calls, hrun, hcache, hlen, hmapG⟩ :=
        runEpisode_spec epSteps (by simp [epSteps])
          ⟨mkRat 1 2, none, vfI, (), []⟩ (Or.inl rfl)
      simp only [gListOf, hrun, hmapG]
      simp [gTrace, rewards, epSteps, rOf, Rat.mkRat_eq_div]
      norm_num,
    mc_returns_discounted vfI () (mkRat 1 2) (Or.inl rfl) (by decide) (by decide)
      epSteps (by simp [epSteps])⟩
